import Mathlib

/-!
Verification of the ESP32 OTA firmware encryption tool
(`bt_audio_sink/tools/encrypt_firmware.py`).

Modelling conventions:

* Bytes are `Nat` (always < 256 in the real program, but none of the
  properties verified here depend on that bound), byte strings are `List Nat`.
* The AES-256 block transforms produced by
  `AES.new(AES_KEY, AES.MODE_CBC, iv)` act on 16-byte blocks.  They come from
  the external pycryptodome library, so they are modelled as explicit
  parameters `E` (block encryption under the fixed key) and `D` (block
  decryption), used under the defining assumptions of a block cipher:
  both are length-preserving on 16-byte blocks and `D` inverts `E`.
* CBC chaining, PKCS#7 padding (`Crypto.Util.Padding.pad` / `unpad`) and the
  artifact layout are modelled concretely, following the source and the
  pycryptodome primitives it calls.
* The random IV (`get_random_bytes(BLOCK_SIZE)`) is an explicit input.
* File I/O is modelled as an explicit path-to-contents state (`Fs`).
-/

namespace EncryptFirmware

/-- Source lines 37-42: the hardcoded AES-256 key — 32 zero bytes. -/
def AES_KEY : List Nat :=
  [0x00, 0x00, 0x00, 0x00, 0x00, 0x00, 0x00, 0x00,
   0x00, 0x00, 0x00, 0x00, 0x00, 0x00, 0x00, 0x00,
   0x00, 0x00, 0x00, 0x00, 0x00, 0x00, 0x00, 0x00,
   0x00, 0x00, 0x00, 0x00, 0x00, 0x00, 0x00, 0x00]

/-- Source line 44. -/
def BLOCK_SIZE : Nat := 16

/-- `Crypto.Util.Padding.pad(data, 16)`, PKCS#7 style: append
`n = 16 - len(data) % 16` copies of the byte `n` (so `1 ≤ n ≤ 16`). -/
def pad (data : List Nat) : List Nat :=
  data ++ List.replicate (BLOCK_SIZE - data.length % BLOCK_SIZE)
    (BLOCK_SIZE - data.length % BLOCK_SIZE)

/-- The distinct `ValueError`s raised by `Crypto.Util.Padding.unpad`. -/
inductive UnpadErr
  /-- "Zero-length input cannot be unpadded" -/
  | zeroLength
  /-- "Input data is not padded" -/
  | notAligned
  /-- "Padding is incorrect." / "PKCS#7 padding is incorrect." -/
  | badPadding
deriving DecidableEq

/-- `Crypto.Util.Padding.unpad(padded_data, 16)`, PKCS#7 style: reject empty
or misaligned input, read the last byte `n`, require `1 ≤ n ≤ min 16 len` and
that the last `n` bytes all equal `n`, and strip them. -/
def unpad (data : List Nat) : Except UnpadErr (List Nat) :=
  if data.length = 0 then .error .zeroLength
  else if data.length % BLOCK_SIZE ≠ 0 then .error .notAligned
  else if data.getLastD 0 < 1 ∨ min BLOCK_SIZE data.length < data.getLastD 0 then
    .error .badPadding
  else if data.drop (data.length - data.getLastD 0) ≠
      List.replicate (data.getLastD 0) (data.getLastD 0) then
    .error .badPadding
  else .ok (data.take (data.length - data.getLastD 0))

/-- Byte-wise exclusive or of two equal-length blocks (the CBC chaining step). -/
def xorBlock (a b : List Nat) : List Nat :=
  List.zipWith Nat.xor a b

/-- CBC encryption of `k` 16-byte blocks of `data`, chaining from `prev`
(the IV for the first block): each ciphertext block is
`E (previous ciphertext block XOR plaintext block)`.  This is what
`AES.new(key, AES.MODE_CBC, iv).encrypt` computes, with the AES-256 block
encryption under the key abstracted as `E`. -/
def cbcEncryptGo (E : List Nat → List Nat) : Nat → List Nat → List Nat → List Nat
  | 0, _, _ => []
  | k + 1, prev, data =>
    E (xorBlock prev (data.take BLOCK_SIZE)) ++
      cbcEncryptGo E k (E (xorBlock prev (data.take BLOCK_SIZE)))
        (data.drop BLOCK_SIZE)

/-- `cipher.encrypt(data)` for a fresh CBC cipher with IV `prev`
(`data.length` is a multiple of 16 whenever the real call succeeds). -/
def cbcEncrypt (E : List Nat → List Nat) (prev data : List Nat) : List Nat :=
  cbcEncryptGo E (data.length / BLOCK_SIZE) prev data

/-- CBC decryption of `k` 16-byte blocks, chaining from `prev`: each
plaintext block is `previous ciphertext block XOR D (ciphertext block)`. -/
def cbcDecryptGo (D : List Nat → List Nat) : Nat → List Nat → List Nat → List Nat
  | 0, _, _ => []
  | k + 1, prev, data =>
    xorBlock prev (D (data.take BLOCK_SIZE)) ++
      cbcDecryptGo D k (data.take BLOCK_SIZE) (data.drop BLOCK_SIZE)

/-- `cipher.decrypt(data)` for a fresh CBC cipher with IV `prev`. -/
def cbcDecrypt (D : List Nat → List Nat) (prev data : List Nat) : List Nat :=
  cbcDecryptGo D (data.length / BLOCK_SIZE) prev data

/-- `encrypt_firmware` (source lines 47-69) with the file I/O stripped to
bytes in, artifact bytes out, and the random IV an explicit input: the
artifact is `iv || CBC-encrypt(pad(plaintext))`. -/
def encrypt_firmware (E : List Nat → List Nat) (iv plaintext : List Nat) :
    List Nat :=
  iv ++ cbcEncrypt E iv (pad plaintext)

/-- The spec's (§7) error taxonomy for the crypto layer.  The Python code
raises `ValueError` in every case; the split follows the spec's classification
of the distinct `ValueError`s: shape violations of the artifact
(IV shorter than 16 bytes — rejected by `AES.new`; ciphertext not a multiple
of 16 — rejected by CBC `decrypt`; empty ciphertext — rejected by `unpad`'s
zero-length check) are `malformedArtifact`; failures of `unpad`'s
padding-byte checks are `paddingInvalid`. -/
inductive DecryptError
  | malformedArtifact
  | paddingInvalid
deriving DecidableEq

/-- `decrypt_firmware` (source lines 72-90) with the file I/O stripped:
split the first 16 bytes off as IV (`AES.new` raises when fewer than 16
bytes remain for the IV), CBC-decrypt the remainder (raises when its length
is not a multiple of 16), then `unpad`. -/
def decrypt_firmware (D : List Nat → List Nat) (data : List Nat) :
    Except DecryptError (List Nat) :=
  if data.length < BLOCK_SIZE then .error .malformedArtifact
  else if (data.drop BLOCK_SIZE).length % BLOCK_SIZE ≠ 0 then
    .error .malformedArtifact
  else
    match unpad (cbcDecrypt D (data.take BLOCK_SIZE) (data.drop BLOCK_SIZE)) with
    | .ok plaintext => .ok plaintext
    | .error .badPadding => .error .paddingInvalid
    | .error .zeroLength => .error .malformedArtifact
    | .error .notAligned => .error .malformedArtifact

/-- The `latest.txt` record written by `main` (source lines 159-162):
`f"{args.version},PUT_FIRMWARE_FILE_ID_HERE\n"` — the blob-identifier field
is a fixed placeholder the operator replaces by hand after uploading. -/
def latest_record (version : String) : String :=
  version ++ ",PUT_FIRMWARE_FILE_ID_HERE\n"

/-- Modelled from the spec: the `publish(version, blob_identifier)` contract
of §4.2, which serializes the pair as the comma-delimited line
`"<version>,<blob_identifier>"`.  The source's `main` has no operation taking
a blob identifier; this definition exists to compare the record `main`
actually writes against the spec's contract. -/
def publish_spec (version blob_identifier : String) : String :=
  version ++ "," ++ blob_identifier

/-- Modelled from the spec: the `InsecureKey` startup failure of §9
("implementers should fail loudly (`InsecureKey`) if a zero or otherwise
known-weak key is detected at startup").  The source's `main` has no
corresponding check or error path; the constructor exists so that the
absence of the failure can be stated. -/
inductive ToolError
  | insecureKey
deriving DecidableEq

/-- `main`'s encrypt path (source lines 146-162) with the file I/O stripped:
given the input file's bytes, the version string and the generated IV, it
unconditionally produces the artifact bytes and the `latest.txt` record.
The source inspects `AES_KEY` nowhere: there is no key-validation branch. -/
def main_encrypt (E : List Nat → List Nat) (iv input : List Nat)
    (version : String) : Except ToolError (List Nat × String) :=
  .ok (encrypt_firmware E iv input, latest_record version)

/-- A file-system state: the contents at each path. -/
def Fs : Type := String → List Nat

/-- Writing a file: replace the contents at `path`, leave every other path
unchanged. -/
def fsWrite (fs : Fs) (path : String) (contents : List Nat) : Fs :=
  fun q => if q = path then contents else fs q

/-- `encrypt_firmware`'s file effects (source lines 52-65): read
`input_path`, write `iv ++ ciphertext` to `output_path`. -/
def encrypt_firmware_fs (E : List Nat → List Nat) (iv : List Nat) (fs : Fs)
    (input_path output_path : String) : Fs :=
  fsWrite fs output_path (encrypt_firmware E iv (fs input_path))

/-- `decrypt_firmware`'s file effects (source lines 76-87): read
`input_path`; on success write the plaintext to `output_path`; on a
`ValueError` (raised before the output file is opened) nothing is written. -/
def decrypt_firmware_fs (D : List Nat → List Nat) (fs : Fs)
    (input_path output_path : String) : Fs :=
  match decrypt_firmware D (fs input_path) with
  | .ok plaintext => fsWrite fs output_path plaintext
  | .error _ => fs

/-- The padding-byte well-formedness condition checked by `unpad` once the
shape checks have passed: the last byte `n` satisfies
`1 ≤ n ≤ min 16 len` and the last `n` bytes all equal `n`. -/
abbrev PaddingWellFormed (data : List Nat) : Prop :=
  1 ≤ data.getLastD 0 ∧ data.getLastD 0 ≤ min BLOCK_SIZE data.length ∧
    data.drop (data.length - data.getLastD 0) =
      List.replicate (data.getLastD 0) (data.getLastD 0)

/-! ### Helper lemmas -/

theorem BLOCK_SIZE_eq : BLOCK_SIZE = 16 := rfl

theorem xorBlock_length (a b : List Nat) :
    (xorBlock a b).length = min a.length b.length := by
  simp [xorBlock]

theorem xorBlock_cancel :
    ∀ a b : List Nat, a.length = b.length → xorBlock a (xorBlock a b) = b
  | [], [], _ => rfl
  | x :: a, y :: b, h => by
    have h' : a.length = b.length := by simpa using h
    simp only [xorBlock, List.zipWith_cons_cons]
    have hx : x.xor (x.xor y) = y := Nat.xor_cancel_left x y
    rw [hx]
    exact congrArg _ (xorBlock_cancel a b h')

theorem pad_def (p : List Nat) :
    pad p = p ++ List.replicate (16 - p.length % 16) (16 - p.length % 16) := rfl

theorem pad_length (p : List Nat) :
    (pad p).length = 16 * (p.length / 16 + 1) := by
  simp only [pad_def, List.length_append, List.length_replicate]
  omega

theorem pad_length_mod (p : List Nat) : (pad p).length % 16 = 0 := by
  simp [pad_length, Nat.mul_mod_right]

theorem pad_length_pos (p : List Nat) : 0 < (pad p).length := by
  simp [pad_length]

theorem getLastD_append_replicate (l : List Nat) (n x d : Nat) (h : 0 < n) :
    (l ++ List.replicate n x).getLastD d = x := by
  obtain ⟨m, rfl⟩ : ∃ m, n = m + 1 := ⟨n - 1, by omega⟩
  rw [List.replicate_succ', ← List.append_assoc, List.getLastD_concat]

theorem unpad_append_replicate (p : List Nat) (n : Nat) (h1 : 1 ≤ n)
    (h16 : n ≤ 16) (hmod : (p.length + n) % 16 = 0) :
    unpad (p ++ List.replicate n n) = .ok p := by
  have hlen : (p ++ List.replicate n n).length = p.length + n := by
    simp
  have hlast : (p ++ List.replicate n n).getLastD 0 = n :=
    getLastD_append_replicate p n n 0 (by omega)
  have hdrop : (p ++ List.replicate n n).drop (p.length + n - n) =
      List.replicate n n := by
    rw [Nat.add_sub_cancel]
    exact List.drop_left p _
  have htake : (p ++ List.replicate n n).take (p.length + n - n) = p := by
    rw [Nat.add_sub_cancel]
    exact List.take_left p _
  unfold unpad
  rw [hlast, hlen]
  rw [if_neg (by omega), if_neg (by simp [BLOCK_SIZE_eq]; omega),
    if_neg (by simp [BLOCK_SIZE_eq]; omega), if_neg (by simp [hdrop]),
    htake]

theorem unpad_pad (p : List Nat) : unpad (pad p) = .ok p := by
  rw [pad_def]
  exact unpad_append_replicate p _ (by omega) (by omega) (by omega)

theorem cbcEncryptGo_length (E : List Nat → List Nat)
    (hE : ∀ b, b.length = 16 → (E b).length = 16) :
    ∀ (k : Nat) (prev data : List Nat), prev.length = 16 →
      data.length = 16 * k → (cbcEncryptGo E k prev data).length = 16 * k := by
  intro k
  induction k with
  | zero => intro prev data _ _; simp [cbcEncryptGo]
  | succ k ih =>
    intro prev data hprev hdata
    have htake : (data.take 16).length = 16 := by
      simp [List.length_take]; omega
    have hxor : (xorBlock prev (data.take 16)).length = 16 := by
      rw [xorBlock_length, hprev, htake]; omega
    have hc : (E (xorBlock prev (data.take 16))).length = 16 := hE _ hxor
    have hdrop : (data.drop 16).length = 16 * k := by
      simp [List.length_drop]; omega
    simp only [cbcEncryptGo, BLOCK_SIZE_eq, List.length_append, hc,
      ih _ _ hc hdrop]
    omega

theorem cbcEncrypt_length (E : List Nat → List Nat)
    (hE : ∀ b, b.length = 16 → (E b).length = 16)
    (prev data : List Nat) (hprev : prev.length = 16)
    (hmod : data.length % 16 = 0) :
    (cbcEncrypt E prev data).length = data.length := by
  have hdvd : 16 ∣ data.length := Nat.dvd_of_mod_eq_zero hmod
  have hk : data.length = 16 * (data.length / 16) :=
    (Nat.mul_div_cancel' hdvd).symm
  rw [cbcEncrypt, BLOCK_SIZE_eq,
    cbcEncryptGo_length E hE _ prev data hprev hk, ← hk]

theorem cbcDecryptGo_length (D : List Nat → List Nat)
    (hD : ∀ b, b.length = 16 → (D b).length = 16) :
    ∀ (k : Nat) (prev data : List Nat), prev.length = 16 →
      data.length = 16 * k → (cbcDecryptGo D k prev data).length = 16 * k := by
  intro k
  induction k with
  | zero => intro prev data _ _; simp [cbcDecryptGo]
  | succ k ih =>
    intro prev data hprev hdata
    have htake : (data.take 16).length = 16 := by
      simp [List.length_take]; omega
    have hxor : (xorBlock prev (D (data.take 16))).length = 16 := by
      rw [xorBlock_length, hprev, hD _ htake]; omega
    have hdrop : (data.drop 16).length = 16 * k := by
      simp [List.length_drop]; omega
    simp only [cbcDecryptGo, BLOCK_SIZE_eq, List.length_append, hxor,
      ih _ _ htake hdrop]
    omega

theorem cbcDecrypt_length (D : List Nat → List Nat)
    (hD : ∀ b, b.length = 16 → (D b).length = 16)
    (prev data : List Nat) (hprev : prev.length = 16)
    (hmod : data.length % 16 = 0) :
    (cbcDecrypt D prev data).length = data.length := by
  have hdvd : 16 ∣ data.length := Nat.dvd_of_mod_eq_zero hmod
  have hk : data.length = 16 * (data.length / 16) :=
    (Nat.mul_div_cancel' hdvd).symm
  rw [cbcDecrypt, BLOCK_SIZE_eq,
    cbcDecryptGo_length D hD _ prev data hprev hk, ← hk]

theorem cbcGo_roundtrip (E D : List Nat → List Nat)
    (hE : ∀ b, b.length = 16 → (E b).length = 16)
    (hD : ∀ b, b.length = 16 → D (E b) = b) :
    ∀ (k : Nat) (prev data : List Nat), prev.length = 16 →
      data.length = 16 * k →
      cbcDecryptGo D k prev (cbcEncryptGo E k prev data) = data := by
  intro k
  induction k with
  | zero =>
    intro prev data _ hdata
    have : data = [] := List.eq_nil_of_length_eq_zero (by omega)
    simp [this, cbcEncryptGo, cbcDecryptGo]
  | succ k ih =>
    intro prev data hprev hdata
    have htake : (data.take 16).length = 16 := by
      simp [List.length_take]; omega
    have hxor : (xorBlock prev (data.take 16)).length = 16 := by
      rw [xorBlock_length, hprev, htake]; omega
    have hc : (E (xorBlock prev (data.take 16))).length = 16 := hE _ hxor
    have hdrop : (data.drop 16).length = 16 * k := by
      simp [List.length_drop]; omega
    simp only [cbcEncryptGo, cbcDecryptGo, BLOCK_SIZE_eq]
    rw [List.take_left' hc, List.drop_left' hc, hD _ hxor,
      xorBlock_cancel prev (data.take 16) (by omega),
      ih _ _ hc hdrop, List.take_append_drop]

theorem cbc_roundtrip (E D : List Nat → List Nat)
    (hE : ∀ b, b.length = 16 → (E b).length = 16)
    (hD : ∀ b, b.length = 16 → D (E b) = b)
    (prev data : List Nat) (hprev : prev.length = 16)
    (hmod : data.length % 16 = 0) :
    cbcDecrypt D prev (cbcEncrypt E prev data) = data := by
  have hdvd : 16 ∣ data.length := Nat.dvd_of_mod_eq_zero hmod
  have hk : data.length = 16 * (data.length / 16) :=
    (Nat.mul_div_cancel' hdvd).symm
  have hlen : (cbcEncrypt E prev data).length = data.length :=
    cbcEncrypt_length E hE prev data hprev hmod
  rw [cbcDecrypt, hlen, cbcEncrypt, BLOCK_SIZE_eq]
  exact cbcGo_roundtrip E D hE hD _ prev data hprev hk

theorem cbcEncryptGo_congr (E E' : List Nat → List Nat)
    (hE : ∀ b, b.length = 16 → (E b).length = 16)
    (hEE : ∀ b, b.length = 16 → E b = E' b) :
    ∀ (k : Nat) (prev data : List Nat), prev.length = 16 →
      data.length = 16 * k →
      cbcEncryptGo E k prev data = cbcEncryptGo E' k prev data := by
  intro k
  induction k with
  | zero => intro prev data _ _; rfl
  | succ k ih =>
    intro prev data hprev hdata
    have htake : (data.take 16).length = 16 := by
      simp [List.length_take]; omega
    have hxor : (xorBlock prev (data.take 16)).length = 16 := by
      rw [xorBlock_length, hprev, htake]; omega
    have hc : (E (xorBlock prev (data.take 16))).length = 16 := hE _ hxor
    have hdrop : (data.drop 16).length = 16 * k := by
      simp [List.length_drop]; omega
    simp only [cbcEncryptGo, BLOCK_SIZE_eq]
    rw [← hEE _ hxor, ih _ _ hc hdrop]

theorem unpad_of_wf (d : List Nat) (h0 : d ≠ []) (hm : d.length % 16 = 0)
    (hwf : PaddingWellFormed d) :
    unpad d = .ok (d.take (d.length - d.getLastD 0)) := by
  obtain ⟨h1, h2, h3⟩ := hwf
  unfold unpad
  rw [if_neg (by simp [h0]), if_neg (by simp [BLOCK_SIZE_eq, hm]),
    if_neg (by push_neg; exact ⟨h1, h2⟩), if_neg (not_not_intro h3)]

theorem unpad_of_not_wf (d : List Nat) (h0 : d ≠ []) (hm : d.length % 16 = 0)
    (hwf : ¬ PaddingWellFormed d) :
    unpad d = .error .badPadding := by
  unfold unpad
  rw [if_neg (by simp [h0]), if_neg (by simp [BLOCK_SIZE_eq, hm])]
  by_cases hA : d.getLastD 0 < 1 ∨ min BLOCK_SIZE d.length < d.getLastD 0
  · rw [if_pos hA]
  · rw [if_neg hA]
    push_neg at hA
    have h3 : d.drop (d.length - d.getLastD 0) ≠
        List.replicate (d.getLastD 0) (d.getLastD 0) :=
      fun h3 => hwf ⟨hA.1, hA.2, h3⟩
    rw [if_pos h3]

/-! ### The claims -/

/-- **C1.** Round-trip: for every byte sequence `p` (including the empty
sequence) and the 32-byte key — modelled by the mutually inverse,
length-preserving AES-256 block transforms `E`/`D` it induces — decrypting
the artifact produced by encrypting `p` returns exactly `p`, for every
correctly generated (16-byte) IV. -/
theorem C1_round_trip (E D : List Nat → List Nat)
    (hE : ∀ b, b.length = 16 → (E b).length = 16)
    (hD : ∀ b, b.length = 16 → D (E b) = b)
    (iv p : List Nat) (hiv : iv.length = 16) :
    decrypt_firmware D (encrypt_firmware E iv p) = .ok p := by
  have hctlen : (cbcEncrypt E iv (pad p)).length = (pad p).length :=
    cbcEncrypt_length E hE iv (pad p) hiv (pad_length_mod p)
  have hlen : (encrypt_firmware E iv p).length = 16 + (pad p).length := by
    simp [encrypt_firmware, hiv, hctlen]
  have htake : (encrypt_firmware E iv p).take 16 = iv := by
    rw [encrypt_firmware]; exact List.take_left' hiv
  have hdrop : (encrypt_firmware E iv p).drop 16 = cbcEncrypt E iv (pad p) := by
    rw [encrypt_firmware]; exact List.drop_left' hiv
  unfold decrypt_firmware
  rw [BLOCK_SIZE_eq, htake, hdrop]
  rw [if_neg (by rw [hlen]; omega)]
  rw [if_neg (by rw [hctlen]; simp [pad_length_mod p])]
  rw [cbc_roundtrip E D hE hD iv (pad p) hiv (pad_length_mod p), unpad_pad]

/-- Witness for C1 at `p = [1, 2, 3]`, the all-zero IV, and the identity
block transform (which is length-preserving and self-inverse). -/
theorem C1_witness :
    decrypt_firmware id (encrypt_firmware id (List.replicate 16 0) [1, 2, 3]) =
      .ok [1, 2, 3] :=
  C1_round_trip id id (fun _ h => h) (fun _ _ => rfl) (List.replicate 16 0)
    [1, 2, 3] (by decide)

/-- **C2.** Artifact format: the artifact is laid out as the 16-byte IV
followed by the ciphertext, its total length is `16 +` the ciphertext
length, the ciphertext length is a positive multiple of 16, and an empty
plaintext still yields one full 16-byte padding block of ciphertext. -/
theorem C2_artifact_format (E : List Nat → List Nat)
    (hE : ∀ b, b.length = 16 → (E b).length = 16)
    (iv p : List Nat) (hiv : iv.length = 16) :
    encrypt_firmware E iv p = iv ++ cbcEncrypt E iv (pad p) ∧
    (encrypt_firmware E iv p).length =
      16 + (cbcEncrypt E iv (pad p)).length ∧
    (cbcEncrypt E iv (pad p)).length % 16 = 0 ∧
    0 < (cbcEncrypt E iv (pad p)).length ∧
    (p = [] → (cbcEncrypt E iv (pad p)).length = 16) := by
  have hctlen : (cbcEncrypt E iv (pad p)).length = (pad p).length :=
    cbcEncrypt_length E hE iv (pad p) hiv (pad_length_mod p)
  refine ⟨rfl, by simp [encrypt_firmware, hiv], ?_, ?_, ?_⟩
  · rw [hctlen]; exact pad_length_mod p
  · rw [hctlen]; exact pad_length_pos p
  · intro hp; subst hp; rw [hctlen, pad_length]; simp

/-- Witness for C2 at the empty plaintext, the all-zero IV, and the identity
block transform. -/
theorem C2_witness :
    encrypt_firmware id (List.replicate 16 0) [] =
      List.replicate 16 0 ++ cbcEncrypt id (List.replicate 16 0) (pad []) ∧
    (encrypt_firmware id (List.replicate 16 0) []).length =
      16 + (cbcEncrypt id (List.replicate 16 0) (pad [])).length ∧
    (cbcEncrypt id (List.replicate 16 0) (pad [])).length % 16 = 0 ∧
    0 < (cbcEncrypt id (List.replicate 16 0) (pad [])).length ∧
    (([] : List Nat) = [] →
      (cbcEncrypt id (List.replicate 16 0) (pad [])).length = 16) :=
  C2_artifact_format id (fun _ h => h) (List.replicate 16 0) [] (by decide)

/-- **C8.** Exact output size: the artifact has length exactly
`16 + 16 * (⌊len p / 16⌋ + 1)`, which exceeds the plaintext length by at
least 17 and at most 32 bytes. -/
theorem C8_exact_size (E : List Nat → List Nat)
    (hE : ∀ b, b.length = 16 → (E b).length = 16)
    (iv p : List Nat) (hiv : iv.length = 16) :
    (encrypt_firmware E iv p).length = 16 + 16 * (p.length / 16 + 1) ∧
    p.length + 17 ≤ (encrypt_firmware E iv p).length ∧
    (encrypt_firmware E iv p).length ≤ p.length + 32 := by
  have hctlen : (cbcEncrypt E iv (pad p)).length = (pad p).length :=
    cbcEncrypt_length E hE iv (pad p) hiv (pad_length_mod p)
  have hlen : (encrypt_firmware E iv p).length = 16 + (pad p).length := by
    simp [encrypt_firmware, hiv, hctlen]
  rw [hlen, pad_length]
  omega

/-- Witness for C8 at `p = [1, 2, 3]`, the all-zero IV, and the identity
block transform. -/
theorem C8_witness :
    (encrypt_firmware id (List.replicate 16 0) [1, 2, 3]).length =
      16 + 16 * (([1, 2, 3] : List Nat).length / 16 + 1) ∧
    ([1, 2, 3] : List Nat).length + 17 ≤
      (encrypt_firmware id (List.replicate 16 0) [1, 2, 3]).length ∧
    (encrypt_firmware id (List.replicate 16 0) [1, 2, 3]).length ≤
      ([1, 2, 3] : List Nat).length + 32 :=
  C8_exact_size id (fun _ h => h) (List.replicate 16 0) [1, 2, 3] (by decide)

/-- **C9.** Determinism given the IV: with the random bytes an explicit
input, the artifact is a pure function of (plaintext, key, IV) — two
invocations with the same plaintext, the same 16 generated IV bytes, and
keys inducing the same block encryption on 16-byte blocks produce
byte-identical artifacts. -/
theorem C9_pure_function_of_inputs (E E' : List Nat → List Nat)
    (hE : ∀ b, b.length = 16 → (E b).length = 16)
    (hEE : ∀ b, b.length = 16 → E b = E' b)
    (iv p : List Nat) (hiv : iv.length = 16) :
    encrypt_firmware E iv p = encrypt_firmware E' iv p := by
  have hdvd : 16 ∣ (pad p).length := Nat.dvd_of_mod_eq_zero (pad_length_mod p)
  have hk : (pad p).length = 16 * ((pad p).length / 16) :=
    (Nat.mul_div_cancel' hdvd).symm
  unfold encrypt_firmware cbcEncrypt
  rw [BLOCK_SIZE_eq, cbcEncryptGo_congr E E' hE hEE _ iv (pad p) hiv hk]

/-- Witness for C9 at `p = [5]`, the all-zero IV, and two syntactically
distinct but extensionally equal block transforms. -/
theorem C9_witness :
    encrypt_firmware id (List.replicate 16 0) [5] =
      encrypt_firmware (fun b => b) (List.replicate 16 0) [5] :=
  C9_pure_function_of_inputs id (fun b => b) (fun _ h => h) (fun _ _ => rfl)
    (List.replicate 16 0) [5] (by decide)

/-- **C3.** Malformed-artifact rejection: every artifact shorter than 16
bytes, or whose post-IV length is not a positive multiple of 16, makes
`decrypt_firmware` fail with `malformedArtifact`, and the failing operation
writes no output file (the file-system state is unchanged). -/
theorem C3_malformed_rejected (D : List Nat → List Nat) (data : List Nat)
    (h : data.length < 16 ∨
      ¬(0 < data.length - 16 ∧ (data.length - 16) % 16 = 0)) :
    decrypt_firmware D data = .error .malformedArtifact ∧
    ∀ (fs : Fs) (input_path output_path : String), fs input_path = data →
      decrypt_firmware_fs D fs input_path output_path = fs := by
  have hdroplen : (data.drop 16).length = data.length - 16 := by simp
  have hmain : decrypt_firmware D data = .error .malformedArtifact := by
    unfold decrypt_firmware
    rw [BLOCK_SIZE_eq]
    by_cases hlt : data.length < 16
    · rw [if_pos hlt]
    · rw [if_neg hlt]
      by_cases hmod : (data.length - 16) % 16 = 0
      · rw [if_neg (by rw [hdroplen]; exact not_not_intro hmod)]
        have hz : data.length - 16 = 0 := by
          rcases h with h | h
          · omega
          · by_contra hnz; exact h ⟨by omega, hmod⟩
        have hnil : data.drop 16 = [] :=
          List.eq_nil_of_length_eq_zero (by omega)
        rw [hnil]
        rfl
      · rw [if_pos (by rw [hdroplen]; exact hmod)]
  refine ⟨hmain, ?_⟩
  intro fs input_path output_path hfs
  simp only [decrypt_firmware_fs, hfs, hmain]

/-- Witness for C3 at the empty artifact. -/
theorem C3_witness :
    decrypt_firmware id [] = .error .malformedArtifact :=
  (C3_malformed_rejected id [] (Or.inl (by decide))).1

/-- **C4.** Padding rejection: for every well-sized artifact (length at
least 32, post-IV length a positive multiple of 16), `decrypt_firmware`
splits off the first 16 bytes as IV, CBC-decrypts the remainder, fails with
`paddingInvalid` exactly when the resulting PKCS#7 padding bytes are not
well-formed, and returns the unpadded plaintext when they are. -/
theorem C4_padding_rejection (D : List Nat → List Nat)
    (hD : ∀ b, b.length = 16 → (D b).length = 16)
    (data : List Nat) (h32 : 32 ≤ data.length)
    (hmod : (data.length - 16) % 16 = 0) :
    (decrypt_firmware D data = .error .paddingInvalid ↔
      ¬ PaddingWellFormed (cbcDecrypt D (data.take 16) (data.drop 16))) ∧
    (∀ pt, unpad (cbcDecrypt D (data.take 16) (data.drop 16)) = .ok pt →
      decrypt_firmware D data = .ok pt) := by
  have htake16 : (data.take 16).length = 16 := by
    simp [List.length_take]; omega
  have hdroplen : (data.drop 16).length = data.length - 16 := by simp
  have hctmod : (data.drop 16).length % 16 = 0 := by rw [hdroplen]; exact hmod
  have hpadlen : (cbcDecrypt D (data.take 16) (data.drop 16)).length =
      (data.drop 16).length :=
    cbcDecrypt_length D hD _ _ htake16 hctmod
  have hpadne : cbcDecrypt D (data.take 16) (data.drop 16) ≠ [] := by
    intro hnil
    rw [hnil] at hpadlen
    simp at hpadlen
    omega
  have hpmod : (cbcDecrypt D (data.take 16) (data.drop 16)).length % 16 = 0 := by
    rw [hpadlen]; exact hctmod
  have hred : decrypt_firmware D data =
      match unpad (cbcDecrypt D (data.take 16) (data.drop 16)) with
      | .ok plaintext => .ok plaintext
      | .error .badPadding => .error .paddingInvalid
      | .error .zeroLength => .error .malformedArtifact
      | .error .notAligned => .error .malformedArtifact := by
    unfold decrypt_firmware
    rw [BLOCK_SIZE_eq, if_neg (by omega), if_neg (not_not_intro hctmod)]
  by_cases hwf : PaddingWellFormed (cbcDecrypt D (data.take 16) (data.drop 16))
  · have hok := unpad_of_wf _ hpadne hpmod hwf
    refine ⟨?_, ?_⟩
    · rw [hred, hok]
      exact iff_of_false (by simp) (not_not_intro hwf)
    · intro pt hpt
      rw [hred, hpt]
  · have herr := unpad_of_not_wf _ hpadne hpmod hwf
    refine ⟨?_, ?_⟩
    · rw [hred, herr]
      exact iff_of_true rfl hwf
    · intro pt hpt
      rw [herr] at hpt
      exact absurd hpt (by simp)

/-- Witness for C4 at the 32-byte all-zero artifact and the identity block
transform: the CBC-decrypted block ends in the byte 0, which is not
well-formed PKCS#7 padding, so decryption fails with `paddingInvalid`. -/
theorem C4_witness :
    decrypt_firmware id (List.replicate 32 0) = .error .paddingInvalid :=
  ((C4_padding_rejection id (fun _ h => h) (List.replicate 32 0) (by decide)
      (by decide)).1).mpr (by decide)

/-- **C5 counterexample.** The claim — the descriptor record produced is
`"<version>,<blob_identifier>"` containing exactly the supplied version and
the supplied blob identifier — is false at version `"1.0.0"` and blob
identifier `"X"`: the record `main` writes is
`"1.0.0,PUT_FIRMWARE_FILE_ID_HERE\n"`, not `"1.0.0,X"`.  (`main` accepts no
blob identifier at all; the second field is always the placeholder.) -/
theorem C5_counterexample :
    latest_record "1.0.0" ≠ publish_spec "1.0.0" "X" := by
  decide

/-- **C5 (amended).** Descriptor publication: for every version string,
`main` writes the single newline-terminated comma-delimited line whose first
field is exactly the supplied version, with no escaping or quoting, and
whose second field is the fixed placeholder `PUT_FIRMWARE_FILE_ID_HERE` —
the spec's `publish` applied to the placeholder, not to a supplied blob
identifier. -/
theorem C5_placeholder_record (v : String) :
    latest_record v = publish_spec v "PUT_FIRMWARE_FILE_ID_HERE" ++ "\n" := by
  unfold latest_record publish_spec
  rw [String.append_assoc, String.append_assoc]
  exact congrArg (fun s => v ++ s) (by decide)

/-- **C6.** The claim says the tool fails loudly with `InsecureKey` at
startup when the configured 32-byte key is all-zero.  The configured
`AES_KEY` *is* the all-zero 32-byte key, yet `main` performs no key
inspection and unconditionally proceeds to encrypt and to write the
descriptor record: in particular, on the concrete input `[1]` it returns
the artifact rather than any `insecureKey` failure. -/
theorem C6_no_insecure_key_check :
    AES_KEY = List.replicate 32 0 ∧
    (∀ E iv input version, main_encrypt E iv input version =
      .ok (encrypt_firmware E iv input, latest_record version)) ∧
    main_encrypt id (List.replicate 16 0) [1] "1.0.0" ≠
      .error .insecureKey := by
  refine ⟨by decide, fun E iv input version => rfl, by simp [main_encrypt]⟩

/-- **C10 counterexample.** With the input and output paths equal — a
combination the CLI can produce: `--decrypt` with an input name not
containing `.enc` makes `output = input`, and an encrypt run whose input
file is `<output-dir>/<version>.enc` does likewise — the input file's bytes
are NOT identical before and after: encrypting the one-byte file `[1]` over
itself replaces it with the 48-byte artifact. -/
theorem C10_counterexample :
    encrypt_firmware_fs id (List.replicate 16 0) (fun _ => [1])
      "fw.bin" "fw.bin" "fw.bin" ≠ [1] := by
  decide

/-- **C10 (amended).** Frame property: each operation writes only the
designated output path — every path other than the output path, in
particular the input path whenever it differs from the output path, holds
identical contents before and after both the encrypt and the decrypt
operation.  (The claim as stated fails when the designated output path
coincides with the input path; see the counterexample.) -/
theorem C10_frame (E D : List Nat → List Nat) (iv : List Nat) (fs : Fs)
    (input_path output_path q : String) (hq : q ≠ output_path) :
    encrypt_firmware_fs E iv fs input_path output_path q = fs q ∧
    decrypt_firmware_fs D fs input_path output_path q = fs q := by
  constructor
  · simp [encrypt_firmware_fs, fsWrite, hq]
  · unfold decrypt_firmware_fs
    cases decrypt_firmware D (fs input_path) with
    | ok pt => simp [fsWrite, hq]
    | error e => rfl

/-- Witness for the amended C10 at concrete distinct input and output
paths. -/
theorem C10_witness :
    encrypt_firmware_fs id (List.replicate 16 0) (fun _ => [1])
      "fw.bin" "out.enc" "fw.bin" = [1] ∧
    decrypt_firmware_fs id (fun _ => [1]) "fw.bin" "out.enc" "fw.bin" = [1] :=
  C10_frame id id (List.replicate 16 0) (fun _ => [1]) "fw.bin" "out.enc"
    "fw.bin" (by decide)

end EncryptFirmware
